import Mathlib

/-!
Verification of the pseudo-register allocator in `src/backend/locations.rs`
(waffle). The Rust code is shallowly embedded: hash maps become
insertion-ordered association lists, `Vec` stacks become Lean lists (with the
`Vec` push/pop end at the list head), panics become `Option.none`, and the
unstable sorts become the stable insertion sort of Mathlib (a legitimate
refinement: the source sorts only by the numeric key, and every claim settled
on a concrete input below uses spans with pairwise distinct keys, where every
sort agrees).
-/

namespace LocationsModel

/-- SSA value identifier (waffle `Value`); `Value::index()` is the identity
on the underlying number. -/
abbrev Value := Nat

/-- Primitive type tag (`wasmparser::Type`), kept abstract as a number. -/
abbrev Ty := Nat

/-- A `(Value, usize)` pair: value plus multi-value sub-index. -/
abbrev Key := Nat × Nat

/-- Modelled from the spec: the shapes of `SerializedOperator` relevant to
allocation. `set`/`get` are the explicit write/read pseudo-operations matched
by the eliminator; every other operator shape is opaque apart from the
(value, sub-index) pairs it reads and writes, which the visitor interface
(`visit_value_locals`, defined outside this file) enumerates. -/
inductive SerializedOperator where
  | set (v : Value) (i : Nat)
  | get (v : Value) (i : Nat)
  | other (reads writes : List Key)
deriving DecidableEq, Repr

/-- Modelled from the spec: `SerializedOperator::visit_value_locals` calls a
read visitor on each pair the operation reads and a write visitor on each pair
it writes; `Get` reads its pair, `Set` writes its pair, and an opaque
operation yields its stored read and write lists. Returns (reads, writes),
matching the two vectors `handle_op` accumulates. -/
def visit_value_locals : SerializedOperator → List Key × List Key
  | .set v i => ([], [(v, i)])
  | .get v i => ([(v, i)], [])
  | .other r w => (r, w)

/-- `ValueSpan`: the liveness interval of one (value, sub-index) pair.
The Rust field `end` is a Lean keyword, rendered `end_`. -/
structure ValueSpan where
  value : Value
  multi_value_index : Nat
  start : Nat
  end_ : Nat
deriving DecidableEq, Repr

instance : Inhabited ValueSpan := ⟨⟨0, 0, 0, 0⟩⟩

/-- `ValueSpan::len`. -/
def ValueSpan.len (s : ValueSpan) : Nat := s.end_ - s.start

/-- The (value, sub-index) key of a span. -/
def keyOf (s : ValueSpan) : Key := (s.value, s.multi_value_index)

/-- Association-list lookup; determinizes `FxHashMap::get`. -/
def alGet {κ α : Type} [DecidableEq κ] (m : List (κ × α)) (k : κ) : Option α :=
  match m with
  | [] => none
  | (k₁, v) :: rest => if k₁ = k then some v else alGet rest k

/-- Association-list insert-or-replace; determinizes `FxHashMap::insert`
(new keys are appended, so list order is first-insertion order). -/
def alInsert {κ α : Type} [DecidableEq κ] (m : List (κ × α)) (k : κ) (v : α) :
    List (κ × α) :=
  match m with
  | [] => [(k, v)]
  | (k₁, v₁) :: rest =>
    if k₁ = k then (k₁, v) :: rest else (k₁, v₁) :: alInsert rest k v

/-- Association-list in-place update of an existing entry; determinizes
mutation through `FxHashMap::get_mut`. -/
def alModify {κ α : Type} [DecidableEq κ] (m : List (κ × α)) (k : κ) (f : α → α) :
    List (κ × α) :=
  match m with
  | [] => []
  | (k₁, v₁) :: rest =>
    if k₁ = k then (k₁, f v₁) :: rest else (k₁, v₁) :: alModify rest k f

/-- The span map `Allocator::spans`. -/
abbrev SpanMap := List (Key × ValueSpan)

/-- The read loop of `Allocator::handle_op`: for each read pair the span must
already exist (`panic!("Read before any write ...")` is modelled by `none`)
and its `end` is extended to `location + 1`. -/
def extendReads (location : Nat) : List Key → SpanMap → Option SpanMap
  | [], m => some m
  | k :: rest, m =>
    match alGet m k with
    | none => none
    | some _ =>
      extendReads location rest (alModify m k (fun s => { s with end_ := location + 1 }))

/-- The write loop of `Allocator::handle_op`: `entry(...).or_insert(ValueSpan
{ value, multi_value_index, start: location, end: location + 1 }).end =
location + 1`. -/
def insertWrites (location : Nat) : List Key → SpanMap → SpanMap
  | [], m => m
  | (v, i) :: rest, m =>
    insertWrites location rest
      (match alGet m (v, i) with
        | none =>
          alInsert m (v, i)
            { value := v, multi_value_index := i, start := location,
              end_ := location + 1 }
        | some _ => alModify m (v, i) (fun s => { s with end_ := location + 1 }))

/-- `Allocator::handle_op`: collect reads and writes via the visitor, process
all reads (extending span ends, failing on a read with no span), then all
writes (creating or extending spans). -/
def handle_op (location : Nat) (op : SerializedOperator) (m : SpanMap) :
    Option SpanMap :=
  let rw := visit_value_locals op
  match extendReads location rw.1 m with
  | none => none
  | some m₁ => some (insertWrites location rw.2 m₁)

/-- The elimination scan of `Allocator::compute_spans_and_deleted_ops`
(source lines 99-130): deletes maximal `Set(A), Set(B), Get(B), Get(A)` runs.
`current_run` is the `Vec` stack of pending `Set`s with its top at the list
head; `delete` accumulates the positions marked for deletion. -/
def deleteLoop :
    List SerializedOperator → Nat → Option Nat → List SerializedOperator →
      List Nat → List Nat
  | [], _, _, _, delete => delete
  | op :: rest, index, start, current_run, delete =>
    match op, start, current_run.head? with
    | .set v i, none, _ =>
      deleteLoop rest (index + 1) (some index) (.set v i :: current_run) delete
    | .set v i, some s, _ =>
      deleteLoop rest (index + 1) (some s) (.set v i :: current_run) delete
    | .get v i, some s, some top =>
      if top = .set v i then
        if current_run.tail.isEmpty then
          deleteLoop rest (index + 1) none current_run.tail
            (delete ++ List.range' s (index + 1 - s))
        else
          deleteLoop rest (index + 1) (some s) current_run.tail delete
      else
        deleteLoop rest (index + 1) none [] delete
    | .get _ _, _, _ => deleteLoop rest (index + 1) none [] delete
    | .other _ _, _, _ => deleteLoop rest (index + 1) none [] delete

/-- The deleted-position list produced by the elimination scan. -/
def computeDelete (operators : List SerializedOperator) : List Nat :=
  deleteLoop operators 0 none [] []

/-- The span-construction loop of `compute_spans_and_deleted_ops` (source
lines 133-143): every operator whose index is at the `next_delete` cursor of
the delete list is skipped, every other operator is fed to `handle_op`. -/
def spanLoop (delete : List Nat) :
    List SerializedOperator → Nat → Nat → SpanMap → Option SpanMap
  | [], _, _, m => some m
  | op :: rest, index, next_delete, m =>
    if next_delete < delete.length ∧ delete.getD next_delete 0 = index then
      spanLoop delete rest (index + 1) (next_delete + 1) m
    else
      match handle_op index op m with
      | none => none
      | some m₁ => spanLoop delete rest (index + 1) next_delete m₁

/-- Span construction for a whole operator stream. -/
def buildSpans (operators : List SerializedOperator) (delete : List Nat) :
    Option SpanMap :=
  spanLoop delete operators 0 0 []

/-- The mutable allocation state: `locations` and `new_locals` of the
`Locations` result under construction, plus the type-indexed `freelist`.
Freelist buckets are `Vec` stacks with their top at the list head. Local ids
(`LocalId = u32`) are modelled as `Nat`, and the `as u32` cast in
`handle_start` as reduction modulo 2^32. -/
structure AllocState where
  locations : List (Key × Nat)
  new_locals : List Ty
  freelist : List (Ty × List Nat)
deriving DecidableEq, Repr

/-- `Allocator::handle_end`: look up the slot assigned to the span's pair
(the `.unwrap()` panic is modelled by `none`) and push it onto the freelist
bucket of the pair's type. -/
def handle_end (types : Value → Nat → Ty) (st : AllocState) (span : ValueSpan) :
    Option AllocState :=
  match alGet st.locations (span.value, span.multi_value_index) with
  | none => none
  | some slot =>
    let ty := types span.value span.multi_value_index
    let bucket := (alGet st.freelist ty).getD []
    some { st with freelist := alInsert st.freelist ty (slot :: bucket) }

/-- `Allocator::handle_start`: pop a free slot of the span's type if the
bucket exists and is non-empty, otherwise create the slot numbered
`f.locals.len() + new_locals.len()` and record its type. The stored id is
`new_local as u32` (source line 206), i.e. the sum reduced modulo 2^32. -/
def handle_start (types : Value → Nat → Ty) (nlocals : Nat) (st : AllocState)
    (span : ValueSpan) : AllocState :=
  let ty := types span.value span.multi_value_index
  match alGet st.freelist ty with
  | some (slot :: rest) =>
    { st with
      freelist := alInsert st.freelist ty rest
      locations := alInsert st.locations (span.value, span.multi_value_index) slot }
  | _ =>
    let new_local := nlocals + st.new_locals.length
    { st with
      new_locals := st.new_locals ++ [ty]
      locations :=
        alInsert st.locations (span.value, span.multi_value_index)
          (new_local % 4294967296) }

/-- The event sweep of `compute_spans_and_deleted_ops` (source lines
152-174), fuel-indexed so that it computes by structural recursion; the
caller passes `starts.length + ends.length` fuel, exactly the number of loop
iterations. Faithfully reproduced from the source: in both branches that
process a start event the span is taken from `ends[start_idx]` (source lines
161 and 166), not from `starts[start_idx]`. -/
def sweepLoop (types : Value → Nat → Ty) (nlocals : Nat)
    (starts ends : List ValueSpan) :
    Nat → Nat → Nat → AllocState → Option AllocState
  | 0, start_idx, end_idx, st =>
    if start_idx < starts.length ∨ end_idx < ends.length then none else some st
  | fuel + 1, start_idx, end_idx, st =>
    if start_idx < starts.length ∧ end_idx < ends.length then
      if (ends.getD end_idx default).end_ ≤ (starts.getD start_idx default).start then
        match handle_end types st (ends.getD end_idx default) with
        | none => none
        | some st₁ =>
          sweepLoop types nlocals starts ends fuel start_idx (end_idx + 1) st₁
      else
        sweepLoop types nlocals starts ends fuel (start_idx + 1) end_idx
          (handle_start types nlocals st (ends.getD start_idx default))
    else if start_idx < starts.length then
      sweepLoop types nlocals starts ends fuel (start_idx + 1) end_idx
        (handle_start types nlocals st (ends.getD start_idx default))
    else if end_idx < ends.length then
      match handle_end types st (ends.getD end_idx default) with
      | none => none
      | some st₁ =>
        sweepLoop types nlocals starts ends fuel start_idx (end_idx + 1) st₁
    else some st

/-- The `Locations` result: slot assignments, deleted positions, and the
types of the newly created locals. -/
structure Locations where
  locations : List (Key × Nat)
  delete : List Nat
  new_locals : List Ty
deriving DecidableEq, Repr

/-- Start-key ordering used for `starts.sort_unstable_by_key(|span| span.start)`. -/
def byStart (a b : ValueSpan) : Prop := a.start ≤ b.start

/-- End-key ordering used for `ends.sort_unstable_by_key(|span| span.end)`. -/
def byEnd (a b : ValueSpan) : Prop := a.end_ ≤ b.end_

instance : DecidableRel byStart := fun a b => Nat.decLe a.start b.start

instance : DecidableRel byEnd := fun a b => Nat.decLe a.end_ b.end_

instance : IsTotal ValueSpan byStart := ⟨fun a b => Nat.le_total a.start b.start⟩

instance : IsTotal ValueSpan byEnd := ⟨fun a b => Nat.le_total a.end_ b.end_⟩

instance : IsTrans ValueSpan byStart := ⟨fun _ _ _ h₁ h₂ => Nat.le_trans h₁ h₂⟩

instance : IsTrans ValueSpan byEnd := ⟨fun _ _ _ h₁ h₂ => Nat.le_trans h₁ h₂⟩

/-- `Locations::compute`: run the eliminator, build the spans, sort the two
views, and run the event sweep; `f` is abstracted to its per-value type table
`types` and its existing-local count `nlocals`. A `none` result models a
panic of the Rust code. -/
def Locations.compute (types : Value → Nat → Ty) (nlocals : Nat)
    (operators : List SerializedOperator) : Option Locations :=
  let delete := computeDelete operators
  match buildSpans operators delete with
  | none => none
  | some spans =>
    let vals := spans.map Prod.snd
    let starts := List.insertionSort byStart vals
    let ends := List.insertionSort byEnd vals
    match sweepLoop types nlocals starts ends (starts.length + ends.length) 0 0
        ⟨[], [], []⟩ with
    | none => none
    | some st =>
      some { locations := st.locations, delete := delete, new_locals := st.new_locals }

/-! ## Specification-level predicates about an operator stream

These restate, directly over the stream and the deleted-position list, the
notions the spec's properties quantify over: a surviving (non-deleted)
position writing or accessing a pair, a pair being written at least once at a
surviving position, and a surviving read with no earlier surviving write. -/

/-- The operator at a stream position (a position past the end yields an
opaque no-read no-write operator, so out-of-range positions never read or
write anything). -/
def opAt (ops : List SerializedOperator) (i : Nat) : SerializedOperator :=
  ops.getD i (.other [] [])

/-- Position `i` survives elimination and writes pair `k`. -/
def survivingWriteAt (ops : List SerializedOperator) (del : List Nat) (i : Nat)
    (k : Key) : Prop :=
  i ∉ del ∧ k ∈ (visit_value_locals (opAt ops i)).2

/-- Position `i` survives elimination and reads or writes pair `k`. -/
def survivingAccessAt (ops : List SerializedOperator) (del : List Nat) (i : Nat)
    (k : Key) : Prop :=
  i ∉ del ∧
    (k ∈ (visit_value_locals (opAt ops i)).1 ∨ k ∈ (visit_value_locals (opAt ops i)).2)

/-- Pair `k` is written at least once at a surviving position. -/
def writtenSurviving (ops : List SerializedOperator) (del : List Nat) (k : Key) :
    Prop :=
  ∃ i, i < ops.length ∧ survivingWriteAt ops del i k

/-- Some surviving position reads a pair that no earlier surviving position
has written. -/
def readBeforeWrite (ops : List SerializedOperator) (del : List Nat) : Prop :=
  ∃ i, i < ops.length ∧ i ∉ del ∧
    ∃ k, k ∈ (visit_value_locals (opAt ops i)).1 ∧
      ∀ j, j < i → ¬ survivingWriteAt ops del j k

instance (ops : List SerializedOperator) (del : List Nat) (i : Nat) (k : Key) :
    Decidable (survivingWriteAt ops del i k) := by
  unfold survivingWriteAt
  infer_instance

instance (ops : List SerializedOperator) (del : List Nat) (i : Nat) (k : Key) :
    Decidable (survivingAccessAt ops del i k) := by
  unfold survivingAccessAt
  infer_instance

instance (ops : List SerializedOperator) (del : List Nat) (k : Key) :
    Decidable (writtenSurviving ops del k) := by
  unfold writtenSurviving
  infer_instance

instance (ops : List SerializedOperator) (del : List Nat) :
    Decidable (readBeforeWrite ops del) := by
  unfold readBeforeWrite
  infer_instance

/-- Well-formedness of a span map for a stream: keys are unique, the map
covers exactly the pairs written at a surviving position, every span points
back to its key, starts at that pair's first surviving write, and ends one
past its last surviving access (hence is non-empty). -/
def SpanMapWF (ops : List SerializedOperator) (del : List Nat) (m : SpanMap) :
    Prop :=
  (m.map Prod.fst).Nodup ∧
  (∀ k, (alGet m k).isSome ↔ writtenSurviving ops del k) ∧
  (∀ k s, alGet m k = some s →
    keyOf s = k ∧
    survivingWriteAt ops del s.start k ∧
    (∀ j, j < s.start → ¬ survivingWriteAt ops del j k) ∧
    s.start < s.end_ ∧
    survivingAccessAt ops del (s.end_ - 1) k ∧
    (∀ j, s.end_ - 1 < j → ¬ survivingAccessAt ops del j k))

/-- Membership-based variant of `spanLoop`: a position is skipped exactly
when it occurs in the delete list. Proved equal to `spanLoop` (whose cursor
walk relies on the delete list being strictly increasing) below. -/
def spanLoopMem (delete : List Nat) :
    List SerializedOperator → Nat → SpanMap → Option SpanMap
  | [], _, m => some m
  | op :: rest, index, m =>
    if index ∈ delete then spanLoopMem delete rest (index + 1) m
    else
      match handle_op index op m with
      | none => none
      | some m₁ => spanLoopMem delete rest (index + 1) m₁

/-- The sequence of span starts in the order `handle_start` assigned their
slots: `locations` is an insertion-ordered map and each interval's slot is
inserted by its `handle_start` event, so the key order of the final
`locations` list is the `handle_start` invocation order. -/
def startOrder (out : Locations) (m : SpanMap) : List Nat :=
  out.locations.map (fun p => match alGet m p.1 with | some s => s.start | none => 0)

/-- Sweep invariant: every slot in a freelist bucket was created during this
run — it is the truncated id of the `j`-th slot created — and the bucket it
sits in matches the type recorded for it in `new_locals`. -/
def FreelistInv (nlocals : Nat) (st : AllocState) : Prop :=
  ∀ t bucket, alGet st.freelist t = some bucket →
    ∀ l ∈ bucket, ∃ j, l = (nlocals + j) % 4294967296 ∧
      st.new_locals[j]? = some t

/-- Sweep invariant: every assigned slot is the truncated id of some slot
created during this run, whose recorded type in `new_locals` is the type of
the pair it is assigned to. -/
def LocationsInv (types : Value → Nat → Ty) (nlocals : Nat) (st : AllocState) :
    Prop :=
  ∀ k l, alGet st.locations k = some l →
    ∃ j, l = (nlocals + j) % 4294967296 ∧
      st.new_locals[j]? = some (types k.1 k.2)

/-! ## Concrete input streams used by individual claims -/

/-- Stream `[Set A, Set B, Set C, Get A]` with A = 1, B = 2, C = 3: spans
A = [0,4), B = [1,2), C = [2,3). -/
def ops12 : List SerializedOperator := [.set 1 0, .set 2 0, .set 3 0, .get 1 0]

/-- The span map the liveness pass produces for `ops12`. -/
def m12 : SpanMap :=
  [((1, 0), ⟨1, 0, 0, 4⟩), ((2, 0), ⟨2, 0, 1, 2⟩), ((3, 0), ⟨3, 0, 2, 3⟩)]

/-- The allocation result for `ops12` with every pair of type 0 and no
existing locals. -/
def out12 : Locations :=
  { locations := [((2, 0), 0), ((3, 0), 1), ((1, 0), 0)], delete := [],
    new_locals := [0, 0] }

/-- Stream with spans A = [0,10) of type 1 and B = [3,4), C = [4,5) of
type 2 (positions 1-2 and 5-8 are opaque operators touching no pair). -/
def opsC3 : List SerializedOperator :=
  [.set 1 0, .other [] [], .other [] [], .set 2 0, .set 3 0,
   .other [] [], .other [] [], .other [] [], .other [] [], .get 1 0]

/-- Type table for `opsC3`: value 1 has type 1, values 2 and 3 type 2. -/
def typesC3 : Value → Nat → Ty := fun v _ => if v = 1 then 1 else 2

/-- The span map for `opsC3`. -/
def mC3 : SpanMap :=
  [((1, 0), ⟨1, 0, 0, 10⟩), ((2, 0), ⟨2, 0, 3, 4⟩), ((3, 0), ⟨3, 0, 4, 5⟩)]

/-- The allocation result for `opsC3` with no existing locals. -/
def outC3 : Locations :=
  { locations := [((2, 0), 0), ((3, 0), 1), ((1, 0), 2)], delete := [],
    new_locals := [2, 2, 1] }

/-- The LIFO self-canceling stream `Write(A), Write(B), Read(B), Read(A)`. -/
def ops7a : List SerializedOperator := [.set 1 0, .set 2 0, .get 2 0, .get 1 0]

/-- The non-matching nesting order stream `Write(A), Write(B), Read(A),
Read(B)`. -/
def ops7b : List SerializedOperator := [.set 1 0, .set 2 0, .get 1 0, .get 2 0]

/-- The end-to-end example stream `[Write(X,0), Write(Y,0), Read(X,0),
Write(Z,0), Read(Y,0), Read(Z,0)]` with X = 1, Y = 2, Z = 3. -/
def ops8 : List SerializedOperator :=
  [.set 1 0, .set 2 0, .get 1 0, .set 3 0, .get 2 0, .get 3 0]

/-- Type table for `ops8`: X and Z of type 1 (T1), Y of type 2 (T2). -/
def types8 : Value → Nat → Ty := fun v _ => if v = 2 then 2 else 1

/-- The allocation result for `ops8` with no existing locals. -/
def out8 : Locations :=
  { locations := [((1, 0), 0), ((2, 0), 1), ((3, 0), 0)], delete := [],
    new_locals := [1, 2] }

/-- The span map for `ops8`. -/
def m8 : SpanMap :=
  [((1, 0), ⟨1, 0, 0, 3⟩), ((2, 0), ⟨2, 0, 1, 5⟩), ((3, 0), ⟨3, 0, 3, 6⟩)]

/-- The allocation result for `ops8` with five existing locals. -/
def out85 : Locations :=
  { locations := [((1, 0), 5), ((2, 0), 6), ((3, 0), 5)], delete := [],
    new_locals := [1, 2] }

/-- A pair written twice and never read: spans `[Set A, Set A]`. -/
def ops9 : List SerializedOperator := [.set 1 0, .set 1 0]

/-- The span map for `ops9`: one interval [0, 2). -/
def m9 : SpanMap := [((1, 0), ⟨1, 0, 0, 2⟩)]

/-- A single write, used with 2^32 existing locals to exhibit the `as u32`
wrap of the new slot id. -/
def opsC10 : List SerializedOperator := [.set 1 0]

/-- The allocation result for `opsC10` with 4294967296 existing locals: the
new slot id 4294967296 + 0 wraps to 0 under the `as u32` cast. -/
def outC10 : Locations :=
  { locations := [((1, 0), 0)], delete := [], new_locals := [0] }

/-! ## Concrete claim theorems -/

/-- C1: the claim states that every start event handles the interval at the
current start-cursor position of the start-sorted ordering, so that
`handle_start` is invoked in ascending order of interval starts. On the
stream `ops12` (spans A = [0,4), B = [1,2), C = [2,3)) the code invokes
`handle_start` on the spans with starts 1, 2, 0 — the end-sorted order —
because the start branches of the sweep read `self.ends[start_idx]` (source
lines 161 and 166) instead of `self.starts[start_idx]`. The claim fails on
the code. -/
theorem c1_start_events_follow_end_order :
    Locations.compute (fun _ _ => 0) 0 ops12 = some out12 ∧
    buildSpans ops12 (computeDelete ops12) = some m12 ∧
    startOrder out12 m12 = [1, 2, 0] ∧
    ¬ List.Pairwise (· ≤ ·) (startOrder out12 m12) := by decide

/-- C2: the claim states that no two (value, sub-index) pairs with
overlapping liveness intervals are assigned the same slot. On `ops12`, pair
(1,0) with interval [0,4) and pair (2,0) with interval [1,2) overlap
(0 < 2 and 1 < 4) yet both are assigned slot 0: the claim fails on the
code (a consequence of the `self.ends[start_idx]` slip in the sweep). -/
theorem c2_overlap_same_slot_counterexample :
    Locations.compute (fun _ _ => 0) 0 ops12 = some out12 ∧
    buildSpans ops12 (computeDelete ops12) = some m12 ∧
    alGet out12.locations (1, 0) = some 0 ∧
    alGet out12.locations (2, 0) = some 0 ∧
    alGet m12 (1, 0) = some ⟨1, 0, 0, 4⟩ ∧
    alGet m12 (2, 0) = some ⟨2, 0, 1, 2⟩ ∧
    ((0 : Nat) < 2 ∧ (1 : Nat) < 4) := by decide

/-- C3: the claim states that, per primitive type, the number of distinct
slots assigned never exceeds the maximum number of simultaneously live pairs
of that type. On `opsC3` the two type-2 pairs (2,0) = [3,4) and (3,0) =
[4,5) never overlap (their maximum simultaneous liveness is 1), yet the code
assigns them two distinct type-2 slots, 0 and 1: the claim fails on the code
(a consequence of the `self.ends[start_idx]` slip in the sweep). -/
theorem c3_slot_minimality_counterexample :
    Locations.compute typesC3 0 opsC3 = some outC3 ∧
    buildSpans opsC3 (computeDelete opsC3) = some mC3 ∧
    alGet outC3.locations (2, 0) = some 0 ∧
    alGet outC3.locations (3, 0) = some 1 ∧
    typesC3 2 0 = 2 ∧ typesC3 3 0 = 2 ∧
    alGet mC3 (2, 0) = some ⟨2, 0, 3, 4⟩ ∧
    alGet mC3 (3, 0) = some ⟨3, 0, 4, 5⟩ ∧
    ¬ ((3 : Nat) < 5 ∧ (4 : Nat) < 4) := by decide

/-- C7: on `Write(A), Write(B), Read(B), Read(A)` the eliminator deletes all
four positions, the liveness pass produces no interval, and no slot is
assigned; on `Write(A), Write(B), Read(A), Read(B)` nothing is deleted. -/
theorem c7_elimination_soundness_and_noninterference :
    computeDelete ops7a = [0, 1, 2, 3] ∧
    buildSpans ops7a (computeDelete ops7a) = some [] ∧
    Locations.compute (fun _ _ => 0) 0 ops7a = some ⟨[], [0, 1, 2, 3], []⟩ ∧
    computeDelete ops7b = [] := by decide

/-- C8: on the six-operation example stream with X, Z of type 1, Y of type 2
and zero existing locals, X and Z share slot 0 of type 1, Y gets the
distinct slot 1 of type 2, and exactly two new slot types [1, 2] are
recorded. -/
theorem c8_end_to_end_example :
    Locations.compute types8 0 ops8 = some out8 ∧
    alGet out8.locations (1, 0) = some 0 ∧
    alGet out8.locations (3, 0) = some 0 ∧
    alGet out8.locations (2, 0) = some 1 ∧
    types8 1 0 = 1 ∧ types8 3 0 = 1 ∧ types8 2 0 = 2 ∧
    out8.new_locals = [1, 2] := by decide

/-- C9 counterexample: the claim states that a pair that is written but never
subsequently read gets an interval with `end = start + 1`. On `ops9 =
[Set A, Set A]` (two surviving writes, no read anywhere in the stream) the
pair's interval is [0, 2): `end` is one past the last write, not
`start + 1`, so the claim as stated fails on the code. -/
theorem c9_double_write_counterexample :
    buildSpans ops9 (computeDelete ops9) = some [((1, 0), ⟨1, 0, 0, 2⟩)] ∧
    (∀ i, i < ops9.length → (visit_value_locals (opAt ops9 i)).1 = []) ∧
    ¬ ((2 : Nat) = 0 + 1) := by decide

/-! ## Association-list lemmas -/

theorem alGet_alInsert {κ α : Type} [DecidableEq κ] (m : List (κ × α)) (k k₂ : κ)
    (v : α) :
    alGet (alInsert m k v) k₂ = if k = k₂ then some v else alGet m k₂ := by
  induction m with
  | nil => simp [alGet, alInsert]
  | cons p rest ih =>
    obtain ⟨k₁, v₁⟩ := p
    by_cases h₁ : k₁ = k
    · subst h₁
      by_cases h₂ : k₁ = k₂ <;> simp [alGet, alInsert, h₂]
    · by_cases h₂ : k₁ = k₂
      · subst h₂
        have : ¬ k = k₁ := fun h => h₁ h.symm
        simp [alGet, alInsert, h₁, this]
      · simp [alGet, alInsert, h₁, h₂, ih]

theorem alGet_alModify {κ α : Type} [DecidableEq κ] (m : List (κ × α)) (k k₂ : κ)
    (f : α → α) :
    alGet (alModify m k f) k₂ =
      if k = k₂ then (alGet m k₂).map f else alGet m k₂ := by
  induction m with
  | nil => simp [alGet, alModify]
  | cons p rest ih =>
    obtain ⟨k₁, v₁⟩ := p
    by_cases h₁ : k₁ = k
    · subst h₁
      by_cases h₂ : k₁ = k₂ <;> simp [alGet, alModify, h₂]
    · by_cases h₂ : k₁ = k₂
      · subst h₂
        have : ¬ k = k₁ := fun h => h₁ h.symm
        simp [alGet, alModify, h₁, this]
      · simp [alGet, alModify, h₁, h₂, ih]

theorem alModify_map_fst {κ α : Type} [DecidableEq κ] (m : List (κ × α)) (k : κ)
    (f : α → α) : (alModify m k f).map Prod.fst = m.map Prod.fst := by
  induction m with
  | nil => rfl
  | cons p rest ih =>
    obtain ⟨k₁, v₁⟩ := p
    by_cases h₁ : k₁ = k <;> simp [alModify, h₁, ih]

theorem alInsert_map_fst {κ α : Type} [DecidableEq κ] (m : List (κ × α)) (k : κ)
    (v : α) :
    (alInsert m k v).map Prod.fst =
      if k ∈ m.map Prod.fst then m.map Prod.fst else m.map Prod.fst ++ [k] := by
  induction m with
  | nil => simp [alInsert]
  | cons p rest ih =>
    obtain ⟨k₁, v₁⟩ := p
    by_cases h₁ : k₁ = k
    · subst h₁; simp [alInsert]
    · have : ¬ k = k₁ := fun h => h₁ h.symm
      by_cases h₂ : k ∈ rest.map Prod.fst <;> simp [alInsert, h₁, this, h₂, ih]

theorem nodup_keys_alInsert {κ α : Type} [DecidableEq κ] (m : List (κ × α))
    (k : κ) (v : α) (h : (m.map Prod.fst).Nodup) :
    ((alInsert m k v).map Prod.fst).Nodup := by
  rw [alInsert_map_fst]
  by_cases hk : k ∈ m.map Prod.fst
  · simpa [hk] using h
  · rw [if_neg hk]
    refine List.nodup_append.mpr ⟨h, List.nodup_singleton k, ?_⟩
    intro x hx hxk
    rw [List.mem_singleton] at hxk
    subst hxk
    exact hk hx

theorem alGet_isSome_iff_mem_keys {κ α : Type} [DecidableEq κ]
    (m : List (κ × α)) (k : κ) :
    (alGet m k).isSome ↔ k ∈ m.map Prod.fst := by
  induction m with
  | nil => simp [alGet]
  | cons p rest ih =>
    obtain ⟨k₁, v₁⟩ := p
    by_cases h₁ : k₁ = k
    · subst h₁; simp [alGet]
    · have hne : ¬ k = k₁ := fun h => h₁ h.symm
      simp [alGet, h₁, hne, ih]

theorem alGet_eq_some_of_mem {κ α : Type} [DecidableEq κ] {m : List (κ × α)}
    {k : κ} {v : α} (hnd : (m.map Prod.fst).Nodup) (hm : (k, v) ∈ m) :
    alGet m k = some v := by
  induction m with
  | nil => cases hm
  | cons p rest ih =>
    obtain ⟨k₁, v₁⟩ := p
    rcases List.mem_cons.mp hm with h | h
    · rw [Prod.mk.injEq] at h
      obtain ⟨h₁, h₂⟩ := h
      subst h₁; subst h₂
      simp [alGet]
    · have hne : k₁ ≠ k := by
        rintro rfl
        exact (List.nodup_cons.mp hnd).1 (List.mem_map.mpr ⟨(k₁, v), h, rfl⟩)
      simpa [alGet, hne] using ih (List.nodup_cons.mp hnd).2 h

theorem mem_of_alGet_eq_some {κ α : Type} [DecidableEq κ] {m : List (κ × α)}
    {k : κ} {v : α} (h : alGet m k = some v) : (k, v) ∈ m := by
  induction m with
  | nil => simp [alGet] at h
  | cons p rest ih =>
    obtain ⟨k₁, v₁⟩ := p
    by_cases h₁ : k₁ = k
    · subst h₁
      simp only [alGet, if_true, eq_self_iff_true, Option.some.injEq] at h
      subst h
      exact List.mem_cons_self _ _
    · simp only [alGet, if_neg h₁] at h
      exact List.mem_cons_of_mem _ (ih h)

/-- Extending the end of a span twice to the same position is the same as
doing it once. -/
theorem map_setEnd_idem (c : Nat) (o : Option ValueSpan) :
    (o.map (fun s => { s with end_ := c })).map (fun s => { s with end_ := c }) =
      o.map (fun s => { s with end_ := c }) := by
  cases o <;> rfl

/-- Composition form of `map_setEnd_idem`, as produced by `Option.map_map`. -/
theorem map_setEnd_comp (c : Nat) (o : Option ValueSpan) :
    Option.map
        ((fun s : ValueSpan => { s with end_ := c }) ∘
          fun s : ValueSpan => { s with end_ := c }) o =
      Option.map (fun s : ValueSpan => { s with end_ := c }) o := by
  cases o <;> rfl

/-! ## Characterization of the read and write loops of `handle_op` -/

theorem extendReads_none_iff (loc : Nat) :
    ∀ (reads : List Key) (m : SpanMap),
      extendReads loc reads m = none ↔ ∃ k ∈ reads, alGet m k = none
  | [], m => by simp [extendReads]
  | k₀ :: rest, m => by
    cases h₀ : alGet m k₀ with
    | none => simp [extendReads, h₀]
    | some s₀ =>
      have ih := extendReads_none_iff loc rest
        (alModify m k₀ (fun s => { s with end_ := loc + 1 }))
      simp only [extendReads, h₀, ih, List.mem_cons]
      constructor
      · rintro ⟨k, hk, hnone⟩
        rw [alGet_alModify] at hnone
        by_cases hkk : k₀ = k
        · subst hkk; simp [h₀] at hnone
        · exact ⟨k, Or.inr hk, by simpa [hkk] using hnone⟩
      · rintro ⟨k, hk | hk, hnone⟩
        · subst hk; simp [h₀] at hnone
        · refine ⟨k, hk, ?_⟩
          rw [alGet_alModify]
          by_cases hkk : k₀ = k
          · subst hkk; simp [h₀] at hnone
          · simpa [hkk] using hnone

theorem extendReads_some_get (loc : Nat) :
    ∀ (reads : List Key) (m m₁ : SpanMap),
      extendReads loc reads m = some m₁ →
      ∀ k, alGet m₁ k =
        if k ∈ reads then (alGet m k).map (fun s => { s with end_ := loc + 1 })
        else alGet m k
  | [], m, m₁, h => by
    simp only [extendReads, Option.some.injEq] at h
    subst h; simp
  | k₀ :: rest, m, m₁, h => by
    intro k
    cases h₀ : alGet m k₀ with
    | none => simp [extendReads, h₀] at h
    | some s₀ =>
      simp only [extendReads, h₀] at h
      have ih := extendReads_some_get loc rest _ _ h k
      rw [ih, alGet_alModify]
      by_cases hk₀ : k₀ = k
      · subst hk₀
        by_cases hkr : k₀ ∈ rest <;>
          simp [hkr, map_setEnd_idem, map_setEnd_comp]
      · have hne : ¬ k = k₀ := fun h => hk₀ h.symm
        by_cases hkr : k ∈ rest <;> simp [hk₀, hkr, hne]

theorem extendReads_map_fst (loc : Nat) :
    ∀ (reads : List Key) (m m₁ : SpanMap),
      extendReads loc reads m = some m₁ → m₁.map Prod.fst = m.map Prod.fst
  | [], m, m₁, h => by
    simp only [extendReads, Option.some.injEq] at h
    subst h; rfl
  | k₀ :: rest, m, m₁, h => by
    cases h₀ : alGet m k₀ with
    | none => simp [extendReads, h₀] at h
    | some s₀ =>
      simp only [extendReads, h₀] at h
      rw [extendReads_map_fst loc rest _ _ h, alModify_map_fst]

theorem insertWrites_get (loc : Nat) :
    ∀ (ws : List Key) (m : SpanMap) (k : Key),
      alGet (insertWrites loc ws m) k =
        if k ∈ ws then
          some (match alGet m k with
            | some s => { s with end_ := loc + 1 }
            | none => ⟨k.1, k.2, loc, loc + 1⟩)
        else alGet m k
  | [], m, k => by simp [insertWrites]
  | w :: rest, m, k => by
    obtain ⟨v, i⟩ := w
    simp only [insertWrites]
    rw [insertWrites_get loc rest _ k]
    by_cases hkw : (v, i) = k
    · subst hkw
      cases hmvi : alGet m (v, i) with
      | none =>
        by_cases hkr : (v, i) ∈ rest <;>
          simp [hmvi, hkr, alGet_alInsert]
      | some s =>
        by_cases hkr : (v, i) ∈ rest <;>
          simp [hmvi, hkr, alGet_alModify]
    · have hne : ¬ k = (v, i) := fun h => hkw h.symm
      cases hmvi : alGet m (v, i) with
      | none =>
        by_cases hkr : k ∈ rest <;>
          simp [hmvi, hkr, alGet_alInsert, hkw, hne]
      | some s =>
        by_cases hkr : k ∈ rest <;>
          simp [hmvi, hkr, alGet_alModify, hkw, hne]

/-! ## Stream-predicate lemmas for appending one operator -/

theorem opAt_append_lt (ops : List SerializedOperator) (op : SerializedOperator)
    (i : Nat) (h : i < ops.length) : opAt (ops ++ [op]) i = opAt ops i := by
  simp only [opAt, List.getD_eq_getElem?_getD]
  rw [List.getElem?_append_left h]

theorem opAt_append_len (ops : List SerializedOperator) (op : SerializedOperator) :
    opAt (ops ++ [op]) ops.length = op := by
  simp only [opAt, List.getD_eq_getElem?_getD]
  rw [List.getElem?_concat_length]
  rfl

theorem opAt_oob (ops : List SerializedOperator) (i : Nat) (h : ops.length ≤ i) :
    opAt ops i = .other [] [] := by
  simp only [opAt, List.getD_eq_getElem?_getD]
  rw [List.getElem?_eq_none h]
  rfl

theorem swa_oob {ops : List SerializedOperator} {del : List Nat} {i : Nat}
    {k : Key} (h : ops.length ≤ i) : ¬ survivingWriteAt ops del i k := by
  unfold survivingWriteAt
  rw [opAt_oob _ _ h]
  simp [visit_value_locals]

theorem saa_oob {ops : List SerializedOperator} {del : List Nat} {i : Nat}
    {k : Key} (h : ops.length ≤ i) : ¬ survivingAccessAt ops del i k := by
  unfold survivingAccessAt
  rw [opAt_oob _ _ h]
  simp [visit_value_locals]

theorem swa_lt_length {ops : List SerializedOperator} {del : List Nat} {i : Nat}
    {k : Key} (h : survivingWriteAt ops del i k) : i < ops.length := by
  by_contra hc
  exact swa_oob (Nat.le_of_not_lt hc) h

theorem saa_lt_length {ops : List SerializedOperator} {del : List Nat} {i : Nat}
    {k : Key} (h : survivingAccessAt ops del i k) : i < ops.length := by
  by_contra hc
  exact saa_oob (Nat.le_of_not_lt hc) h

theorem swa_append_lt {ops : List SerializedOperator} {op : SerializedOperator}
    {del : List Nat} {i : Nat} {k : Key} (h : i < ops.length) :
    survivingWriteAt (ops ++ [op]) del i k ↔ survivingWriteAt ops del i k := by
  unfold survivingWriteAt
  rw [opAt_append_lt _ _ _ h]

theorem saa_append_lt {ops : List SerializedOperator} {op : SerializedOperator}
    {del : List Nat} {i : Nat} {k : Key} (h : i < ops.length) :
    survivingAccessAt (ops ++ [op]) del i k ↔ survivingAccessAt ops del i k := by
  unfold survivingAccessAt
  rw [opAt_append_lt _ _ _ h]

theorem swa_append_len {ops : List SerializedOperator} {op : SerializedOperator}
    {del : List Nat} {k : Key} :
    survivingWriteAt (ops ++ [op]) del ops.length k ↔
      ops.length ∉ del ∧ k ∈ (visit_value_locals op).2 := by
  unfold survivingWriteAt
  rw [opAt_append_len]

theorem saa_append_len {ops : List SerializedOperator} {op : SerializedOperator}
    {del : List Nat} {k : Key} :
    survivingAccessAt (ops ++ [op]) del ops.length k ↔
      ops.length ∉ del ∧
        (k ∈ (visit_value_locals op).1 ∨ k ∈ (visit_value_locals op).2) := by
  unfold survivingAccessAt
  rw [opAt_append_len]

theorem writtenSurviving_append {ops : List SerializedOperator}
    {op : SerializedOperator} {del : List Nat} {k : Key} :
    writtenSurviving (ops ++ [op]) del k ↔
      writtenSurviving ops del k ∨
        (ops.length ∉ del ∧ k ∈ (visit_value_locals op).2) := by
  unfold writtenSurviving
  constructor
  · rintro ⟨i, hi, hswa⟩
    rw [List.length_append, List.length_singleton] at hi
    rcases Nat.lt_or_ge i ops.length with h | h
    · exact Or.inl ⟨i, h, (swa_append_lt h).mp hswa⟩
    · have hieq : i = ops.length := by omega
      subst hieq
      exact Or.inr (swa_append_len.mp hswa)
  · rintro (⟨i, hi, hswa⟩ | ⟨hdel, hk⟩)
    · refine ⟨i, ?_, (swa_append_lt hi).mpr hswa⟩
      rw [List.length_append, List.length_singleton]
      omega
    · refine ⟨ops.length, ?_, swa_append_len.mpr ⟨hdel, hk⟩⟩
      rw [List.length_append, List.length_singleton]
      omega

theorem readBeforeWrite_append {ops : List SerializedOperator}
    {op : SerializedOperator} {del : List Nat} :
    readBeforeWrite (ops ++ [op]) del ↔
      readBeforeWrite ops del ∨
        (ops.length ∉ del ∧
          ∃ k, k ∈ (visit_value_locals op).1 ∧ ¬ writtenSurviving ops del k) := by
  unfold readBeforeWrite
  constructor
  · rintro ⟨i, hi, hdel, k, hk, hnw⟩
    rw [List.length_append, List.length_singleton] at hi
    rcases Nat.lt_or_ge i ops.length with h | h
    · refine Or.inl ⟨i, h, hdel, k, ?_, ?_⟩
      · rwa [opAt_append_lt _ _ _ h] at hk
      · intro j hj
        have hj' := hnw j hj
        rwa [swa_append_lt (Nat.lt_trans hj h)] at hj'
    · have hieq : i = ops.length := by omega
      subst hieq
      refine Or.inr ⟨hdel, k, by rwa [opAt_append_len] at hk, ?_⟩
      rintro ⟨j, hj, hswa⟩
      exact hnw j hj ((swa_append_lt hj).mpr hswa)
  · rintro (⟨i, hi, hdel, k, hk, hnw⟩ | ⟨hdel, k, hk, hnw⟩)
    · refine ⟨i, ?_, hdel, k, by rwa [opAt_append_lt _ _ _ hi], ?_⟩
      · rw [List.length_append, List.length_singleton]; omega
      · intro j hj
        rw [swa_append_lt (Nat.lt_trans hj hi)]
        exact hnw j hj
    · refine ⟨ops.length, ?_, hdel, k, by rwa [opAt_append_len], ?_⟩
      · rw [List.length_append, List.length_singleton]; omega
      · intro j hj
        rw [swa_append_lt hj]
        intro hswa
        exact hnw ⟨j, hj, hswa⟩

theorem insertWrites_nodup_keys (loc : Nat) :
    ∀ (ws : List Key) (m : SpanMap), (m.map Prod.fst).Nodup →
      ((insertWrites loc ws m).map Prod.fst).Nodup
  | [], m, h => h
  | w :: rest, m, h => by
    obtain ⟨v, i⟩ := w
    simp only [insertWrites]
    cases hmvi : alGet m (v, i) with
    | none =>
      exact insertWrites_nodup_keys loc rest _ (nodup_keys_alInsert _ _ _ h)
    | some s =>
      exact insertWrites_nodup_keys loc rest _ (by rw [alModify_map_fst]; exact h)

/-! ## The master characterization of the liveness pass -/

theorem spanLoopMem_append (del : List Nat) :
    ∀ (l₁ l₂ : List SerializedOperator) (idx : Nat) (m : SpanMap),
      spanLoopMem del (l₁ ++ l₂) idx m =
        match spanLoopMem del l₁ idx m with
        | none => none
        | some m₁ => spanLoopMem del l₂ (idx + l₁.length) m₁
  | [], l₂, idx, m => by simp [spanLoopMem]
  | op :: rest, l₂, idx, m => by
    simp only [List.cons_append, spanLoopMem, List.append_eq]
    by_cases hdel : idx ∈ del
    · rw [if_pos hdel, if_pos hdel, spanLoopMem_append del rest l₂ (idx + 1) m]
      have harith : idx + 1 + rest.length = idx + (rest.length + 1) := by omega
      simp only [List.length_cons, harith]
    · rw [if_neg hdel, if_neg hdel]
      cases h : handle_op idx op m with
      | none => rfl
      | some m₁ =>
        simp only [spanLoopMem_append del rest l₂ (idx + 1) m₁]
        have harith : idx + 1 + rest.length = idx + (rest.length + 1) := by omega
        simp only [List.length_cons, harith]

theorem spanLoopMem_single (del : List Nat) (op : SerializedOperator) (idx : Nat)
    (m : SpanMap) :
    spanLoopMem del [op] idx m =
      if idx ∈ del then some m else handle_op idx op m := by
  by_cases hdel : idx ∈ del
  · simp [spanLoopMem, hdel]
  · cases h : handle_op idx op m <;> simp [spanLoopMem, hdel, h]

theorem spanLoopMem_char (del : List Nat) (ops : List SerializedOperator) :
    (spanLoopMem del ops 0 [] = none ↔ readBeforeWrite ops del) ∧
    (∀ m, spanLoopMem del ops 0 [] = some m → SpanMapWF ops del m) := by
  induction ops using List.reverseRecOn with
  | nil =>
    constructor
    · simp only [spanLoopMem]
      constructor
      · intro h; cases h
      · rintro ⟨i, hi, _⟩
        simp at hi
    · intro m hm
      simp only [spanLoopMem, Option.some.injEq] at hm
      subst hm
      refine ⟨List.nodup_nil, fun k => ?_, fun k s hks => ?_⟩
      · simp only [alGet, Option.isSome_none, Bool.false_eq_true, false_iff]
        rintro ⟨i, hi, _⟩
        simp at hi
      · simp [alGet] at hks
  | append_singleton ops op ih =>
    have hsplit := spanLoopMem_append del ops [op] 0 []
    rcases hprev : spanLoopMem del ops 0 [] with _ | m₁
    · -- the prefix already failed: a read-before-write exists in `ops`
      have hrbw : readBeforeWrite ops del := ih.1.mp hprev
      rw [hprev] at hsplit
      constructor
      · rw [hsplit]
        simp only [true_iff]
        exact readBeforeWrite_append.mpr (Or.inl hrbw)
      · intro m hm
        rw [hsplit] at hm
        cases hm
    · have hwf : SpanMapWF ops del m₁ := ih.2 m₁ hprev
      have hnrbw : ¬ readBeforeWrite ops del := by
        intro h
        rw [ih.1.mpr h] at hprev
        cases hprev
      obtain ⟨hnd₁, hdom₁, hspan₁⟩ := hwf
      rw [hprev] at hsplit
      simp only [Nat.zero_add] at hsplit
      rw [spanLoopMem_single] at hsplit
      by_cases hdel : ops.length ∈ del
      · -- the appended position is deleted: the map is unchanged
        rw [if_pos hdel] at hsplit
        constructor
        · rw [hsplit]
          constructor
          · intro h; cases h
          · intro hcontra
            exfalso
            rcases readBeforeWrite_append.mp hcontra with h | ⟨h, _⟩
            · exact hnrbw h
            · exact h hdel
        · intro m hm
          rw [hsplit] at hm
          injection hm with hm
          subst hm
          refine ⟨hnd₁, fun k => ?_, fun k s hks => ?_⟩
          · rw [writtenSurviving_append]
            rw [hdom₁ k]
            constructor
            · exact Or.inl
            · rintro (h | ⟨h, _⟩)
              · exact h
              · exact absurd hdel h
          · obtain ⟨hkey, hswa, hmin, hlt, hsaa, hlast⟩ := hspan₁ k s hks
            have hstart_lt : s.start < ops.length := swa_lt_length hswa
            have hend_lt : s.end_ - 1 < ops.length := saa_lt_length hsaa
            refine ⟨hkey, (swa_append_lt hstart_lt).mpr hswa, ?_, hlt,
              (saa_append_lt hend_lt).mpr hsaa, ?_⟩
            · intro j hj
              rw [swa_append_lt (Nat.lt_trans hj hstart_lt)]
              exact hmin j hj
            · intro j hj
              rcases Nat.lt_or_ge j ops.length with hjn | hjn
              · rw [saa_append_lt hjn]
                exact hlast j hj
              · rcases Nat.lt_or_ge j (ops.length + 1) with hjn1 | hjn1
                · have hjeq : j = ops.length := by omega
                  subst hjeq
                  rw [saa_append_len]
                  rintro ⟨h, _⟩
                  exact h hdel
                · exact saa_oob (by simpa using hjn1)
      · -- the appended position survives: `handle_op` runs on it
        rw [if_neg hdel] at hsplit
        have hopdef : handle_op ops.length op m₁ =
            match extendReads ops.length (visit_value_locals op).1 m₁ with
            | none => none
            | some mr =>
              some (insertWrites ops.length (visit_value_locals op).2 mr) := rfl
        rcases hre : extendReads ops.length (visit_value_locals op).1 m₁ with _ | mr
        · -- a read of an unwritten pair: the whole pass fails
          have hop : handle_op ops.length op m₁ = none := by rw [hopdef, hre]
          obtain ⟨k, hkr, hknone⟩ :=
            (extendReads_none_iff ops.length (visit_value_locals op).1 m₁).mp hre
          have hknw : ¬ writtenSurviving ops del k := by
            intro h
            have := (hdom₁ k).mpr h
            rw [hknone] at this
            cases this
          constructor
          · rw [hsplit, hop]
            simp only [true_iff]
            exact readBeforeWrite_append.mpr (Or.inr ⟨hdel, k, hkr, hknw⟩)
          · intro m hm
            rw [hsplit, hop] at hm
            cases hm
        · -- all reads are live: the span map is updated
          have hop : handle_op ops.length op m₁ =
              some (insertWrites ops.length (visit_value_locals op).2 mr) := by
            rw [hopdef, hre]
          have hrget := extendReads_some_get ops.length _ _ _ hre
          have hrkeys := extendReads_map_fst ops.length _ _ _ hre
          constructor
          · rw [hsplit, hop]
            constructor
            · intro h; cases h
            · intro hcontra
              exfalso
              rcases readBeforeWrite_append.mp hcontra with h | ⟨_, k, hkr, hknw⟩
              · exact hnrbw h
              · have hknone : alGet m₁ k = none := by
                  cases hk : alGet m₁ k with
                  | none => rfl
                  | some s =>
                    exact absurd ((hdom₁ k).mp (by rw [hk]; rfl)) hknw
                have hnone := (extendReads_none_iff ops.length
                  (visit_value_locals op).1 m₁).mpr ⟨k, hkr, hknone⟩
                rw [hre] at hnone
                cases hnone
          · intro m hm
            rw [hsplit, hop] at hm
            injection hm with hm
            subst hm
            have hwget := insertWrites_get ops.length (visit_value_locals op).2 mr
            refine ⟨insertWrites_nodup_keys _ _ _ (by rw [hrkeys]; exact hnd₁),
              fun k => ?_, fun k s hks => ?_⟩
            · -- domain: written pairs gain exactly the appended writes
              rw [hwget k, writtenSurviving_append, ← hdom₁ k]
              by_cases hkw : k ∈ (visit_value_locals op).2
              · rw [if_pos hkw]
                constructor
                · intro _
                  exact Or.inr ⟨hdel, hkw⟩
                · intro _
                  rfl
              · rw [if_neg hkw, hrget k]
                by_cases hkr : k ∈ (visit_value_locals op).1
                · rw [if_pos hkr]
                  cases hk : alGet m₁ k <;> simp [hkw, hkr]
                · rw [if_neg hkr]
                  simp [hkw]
            · -- per-span clauses
              rw [hwget k] at hks
              have hlen1 : (ops ++ [op]).length = ops.length + 1 := by
                rw [List.length_append, List.length_singleton]
              by_cases hkw : k ∈ (visit_value_locals op).2
              · rw [if_pos hkw] at hks
                injection hks with hks
                rcases hmrk : alGet mr k with _ | s₀
                · -- a fresh span for `k`, created by this write
                  simp only [hmrk] at hks
                  have hknone : alGet m₁ k = none := by
                    have hg := hrget k
                    rw [hmrk] at hg
                    by_cases hkr : k ∈ (visit_value_locals op).1
                    · rw [if_pos hkr] at hg
                      cases hk : alGet m₁ k with
                      | none => rfl
                      | some s₁ => rw [hk] at hg; cases hg
                    · rw [if_neg hkr] at hg
                      exact hg.symm
                  have hknw : ¬ writtenSurviving ops del k := by
                    intro h
                    have hs := (hdom₁ k).mpr h
                    rw [hknone] at hs
                    cases hs
                  have hsv : s.start = ops.length := by rw [← hks]
                  have hse : s.end_ = ops.length + 1 := by rw [← hks]
                  have hkeyv : keyOf s = k := by rw [← hks]; simp [keyOf]
                  refine ⟨hkeyv, ?_, ?_, ?_, ?_, ?_⟩
                  · rw [hsv]
                    exact swa_append_len.mpr ⟨hdel, hkw⟩
                  · intro j hj
                    rw [hsv] at hj
                    rw [swa_append_lt hj]
                    intro hswa
                    exact hknw ⟨j, swa_lt_length hswa, hswa⟩
                  · rw [hsv, hse]; omega
                  · rw [hse]
                    simp only [Nat.add_sub_cancel]
                    exact saa_append_len.mpr ⟨hdel, Or.inr hkw⟩
                  · intro j hj
                    rw [hse] at hj
                    simp only [Nat.add_sub_cancel] at hj
                    exact saa_oob (by rw [hlen1]; omega)
                · -- an existing span for `k`, extended by this write
                  simp only [hmrk] at hks
                  have hm₁k : ∃ s₁, alGet m₁ k = some s₁ ∧ s₀.value = s₁.value ∧
                      s₀.multi_value_index = s₁.multi_value_index ∧
                      s₀.start = s₁.start := by
                    have hg := hrget k
                    rw [hmrk] at hg
                    by_cases hkr : k ∈ (visit_value_locals op).1
                    · rw [if_pos hkr] at hg
                      cases hk : alGet m₁ k with
                      | none => rw [hk] at hg; cases hg
                      | some s₁ =>
                        rw [hk] at hg
                        simp only [Option.map_some', Option.some.injEq] at hg
                        refine ⟨s₁, rfl, ?_, ?_, ?_⟩ <;> rw [hg]
                    · rw [if_neg hkr] at hg
                      exact ⟨s₀, hg.symm, rfl, rfl, rfl⟩
                  obtain ⟨s₁, hs₁, hv, hmvi, hst⟩ := hm₁k
                  obtain ⟨hkey, hswa, hmin, _, _, _⟩ := hspan₁ k s₁ hs₁
                  have hstart_lt : s₁.start < ops.length := swa_lt_length hswa
                  have hsv : s.start = s₁.start := by rw [← hks]; exact hst
                  have hse : s.end_ = ops.length + 1 := by rw [← hks]
                  have hval : s.value = s₁.value := by rw [← hks]; exact hv
                  have hmviv : s.multi_value_index = s₁.multi_value_index := by
                    rw [← hks]; exact hmvi
                  have hkeyv : keyOf s = k := by
                    have hkk : keyOf s = keyOf s₁ := by
                      unfold keyOf
                      rw [hval, hmviv]
                    rw [hkk]; exact hkey
                  refine ⟨hkeyv, ?_, ?_, ?_, ?_, ?_⟩
                  · rw [hsv]
                    exact (swa_append_lt hstart_lt).mpr hswa
                  · intro j hj
                    rw [hsv] at hj
                    rw [swa_append_lt (Nat.lt_trans hj hstart_lt)]
                    exact hmin j hj
                  · rw [hsv, hse]; omega
                  · rw [hse]
                    simp only [Nat.add_sub_cancel]
                    exact saa_append_len.mpr ⟨hdel, Or.inr hkw⟩
                  · intro j hj
                    rw [hse] at hj
                    simp only [Nat.add_sub_cancel] at hj
                    exact saa_oob (by rw [hlen1]; omega)
              · rw [if_neg hkw] at hks
                rw [hrget k] at hks
                by_cases hkr : k ∈ (visit_value_locals op).1
                · -- a span extended by a read at the appended position
                  rw [if_pos hkr] at hks
                  rcases hk : alGet m₁ k with _ | s₁
                  · rw [hk] at hks; cases hks
                  · rw [hk] at hks
                    simp only [Option.map_some', Option.some.injEq] at hks
                    obtain ⟨hkey, hswa, hmin, _, _, _⟩ := hspan₁ k s₁ hk
                    have hstart_lt : s₁.start < ops.length := swa_lt_length hswa
                    have hsv : s.start = s₁.start := by rw [← hks]
                    have hse : s.end_ = ops.length + 1 := by rw [← hks]
                    have hval : s.value = s₁.value := by rw [← hks]
                    have hmviv : s.multi_value_index = s₁.multi_value_index := by
                      rw [← hks]
                    have hkeyv : keyOf s = k := by
                      have hkk : keyOf s = keyOf s₁ := by
                        unfold keyOf
                        rw [hval, hmviv]
                      rw [hkk]; exact hkey
                    refine ⟨hkeyv, ?_, ?_, ?_, ?_, ?_⟩
                    · rw [hsv]
                      exact (swa_append_lt hstart_lt).mpr hswa
                    · intro j hj
                      rw [hsv] at hj
                      rw [swa_append_lt (Nat.lt_trans hj hstart_lt)]
                      exact hmin j hj
                    · rw [hsv, hse]; omega
                    · rw [hse]
                      simp only [Nat.add_sub_cancel]
                      exact saa_append_len.mpr ⟨hdel, Or.inl hkr⟩
                    · intro j hj
                      rw [hse] at hj
                      simp only [Nat.add_sub_cancel] at hj
                      exact saa_oob (by rw [hlen1]; omega)
                · -- a pair untouched by the appended operator
                  rw [if_neg hkr] at hks
                  obtain ⟨hkey, hswa, hmin, hlt, hsaa, hlast⟩ := hspan₁ k s hks
                  have hstart_lt : s.start < ops.length := swa_lt_length hswa
                  have hend_lt : s.end_ - 1 < ops.length := saa_lt_length hsaa
                  refine ⟨hkey, (swa_append_lt hstart_lt).mpr hswa, ?_, hlt,
                    (saa_append_lt hend_lt).mpr hsaa, ?_⟩
                  · intro j hj
                    rw [swa_append_lt (Nat.lt_trans hj hstart_lt)]
                    exact hmin j hj
                  · intro j hj
                    rcases Nat.lt_or_ge j ops.length with hjn | hjn
                    · rw [saa_append_lt hjn]
                      exact hlast j hj
                    · rcases Nat.lt_or_ge j (ops.length + 1) with hjn1 | hjn1
                      · have hjeq : j = ops.length := by omega
                        subst hjeq
                        rw [saa_append_len]
                        rintro ⟨_, hacc | hacc⟩
                        · exact hkr hacc
                        · exact hkw hacc
                      · exact saa_oob (by rw [hlen1]; omega)

/-! ## The delete list is strictly increasing, so the cursor walk of
`spanLoop` skips exactly the deleted positions -/

theorem pairwise_lt_range1 : ∀ (n s : Nat), (List.range' s n).Pairwise (· < ·)
  | 0, _ => List.Pairwise.nil
  | n + 1, s => by
    show (s :: List.range' (s + 1) n).Pairwise (· < ·)
    refine List.Pairwise.cons ?_ (pairwise_lt_range1 n (s + 1))
    intro y hy
    have hy' := List.mem_range'_1.mp hy
    omega

theorem deleteLoop_sorted :
    ∀ (rest : List SerializedOperator) (index : Nat) (start : Option Nat)
      (run : List SerializedOperator) (del : List Nat),
      del.Pairwise (· < ·) →
      (∀ d ∈ del, d < index) →
      (∀ s, start = some s → s ≤ index ∧ ∀ d ∈ del, d < s) →
      (deleteLoop rest index start run del).Pairwise (· < ·)
  | [], _, _, _, _, h1, _, _ => h1
  | op :: rest, index, start, run, del, h1, h2, h3 => by
    cases op with
    | set v i =>
      cases start with
      | none =>
        exact deleteLoop_sorted rest (index + 1) (some index) _ del h1
          (fun d hd => Nat.lt_succ_of_lt (h2 d hd))
          (fun s hs => by cases hs; exact ⟨Nat.le_succ index, h2⟩)
      | some s₀ =>
        obtain ⟨hle, hbound⟩ := h3 s₀ rfl
        exact deleteLoop_sorted rest (index + 1) (some s₀) _ del h1
          (fun d hd => Nat.lt_succ_of_lt (h2 d hd))
          (fun s hs => by cases hs; exact ⟨Nat.le_succ_of_le hle, hbound⟩)
    | get v i =>
      cases start with
      | none =>
        exact deleteLoop_sorted rest (index + 1) none [] del h1
          (fun d hd => Nat.lt_succ_of_lt (h2 d hd)) (fun s hs => by cases hs)
      | some s₀ =>
        obtain ⟨hle, hbound⟩ := h3 s₀ rfl
        rcases run with _ | ⟨top₀, runtl⟩
        · exact deleteLoop_sorted rest (index + 1) none [] del h1
            (fun d hd => Nat.lt_succ_of_lt (h2 d hd)) (fun s hs => by cases hs)
        · show ((if top₀ = SerializedOperator.set v i then
              if runtl.isEmpty then
                deleteLoop rest (index + 1) none runtl
                  (del ++ List.range' s₀ (index + 1 - s₀))
              else deleteLoop rest (index + 1) (some s₀) runtl del
            else deleteLoop rest (index + 1) none [] del)).Pairwise (· < ·)
          by_cases htopeq : top₀ = SerializedOperator.set v i
          · rw [if_pos htopeq]
            by_cases hemp : runtl.isEmpty
            · rw [if_pos hemp]
              refine deleteLoop_sorted rest (index + 1) none _ _ ?_ ?_
                (fun s hs => by cases hs)
              · refine List.pairwise_append.mpr
                  ⟨h1, pairwise_lt_range1 _ _, ?_⟩
                intro a ha b hb
                have hb' := List.mem_range'_1.mp hb
                have hba := hbound a ha
                omega
              · intro d hd
                rcases List.mem_append.mp hd with h | h
                · exact Nat.lt_succ_of_lt (h2 d h)
                · have hdr := List.mem_range'_1.mp h
                  omega
            · rw [if_neg hemp]
              exact deleteLoop_sorted rest (index + 1) (some s₀) _ del h1
                (fun d hd => Nat.lt_succ_of_lt (h2 d hd))
                (fun s hs => by cases hs; exact ⟨Nat.le_succ_of_le hle, hbound⟩)
          · rw [if_neg htopeq]
            exact deleteLoop_sorted rest (index + 1) none [] del h1
              (fun d hd => Nat.lt_succ_of_lt (h2 d hd)) (fun s hs => by cases hs)
    | other r w =>
      exact deleteLoop_sorted rest (index + 1) none [] del h1
        (fun d hd => Nat.lt_succ_of_lt (h2 d hd)) (fun s hs => by cases hs)

theorem computeDelete_sorted (ops : List SerializedOperator) :
    (computeDelete ops).Pairwise (· < ·) :=
  deleteLoop_sorted ops 0 none [] [] List.Pairwise.nil
    (by intro d hd; cases hd) (fun s hs => by cases hs)

theorem skip_iff {del : List Nat} (hsort : del.Pairwise (· < ·)) {nd index : Nat}
    (h₁ : ∀ x ∈ del.take nd, x < index) (h₂ : ∀ x ∈ del.drop nd, index ≤ x) :
    (nd < del.length ∧ del.getD nd 0 = index) ↔ index ∈ del := by
  constructor
  · rintro ⟨hnd, hget⟩
    have hg : del.getD nd 0 = del[nd] := by
      rw [List.getD_eq_getElem?_getD, List.getElem?_eq_getElem hnd]
      rfl
    rw [hg] at hget
    rw [← hget]
    exact List.getElem_mem hnd
  · intro hmem
    have hsplit := List.take_append_drop nd del
    have hmem2 : index ∈ del.drop nd := by
      have hmem' : index ∈ del.take nd ++ del.drop nd := by
        rw [hsplit]; exact hmem
      rcases List.mem_append.mp hmem' with h | h
      · exact absurd (h₁ _ h) (Nat.lt_irrefl index)
      · exact h
    have hne : del.drop nd ≠ [] := fun hnil => by rw [hnil] at hmem2; cases hmem2
    have hnd : nd < del.length := by
      by_contra hc
      exact hne (List.drop_eq_nil_of_le (Nat.le_of_not_lt hc))
    refine ⟨hnd, ?_⟩
    rcases hdrop : del.drop nd with _ | ⟨h0, tl⟩
    · exact absurd hdrop hne
    · have hhead : some h0 = del[nd]? := by
        rw [← List.head?_drop, hdrop]
        rfl
      rw [List.getElem?_eq_getElem hnd] at hhead
      injection hhead with hhead
      rw [hdrop] at hmem2
      have hpw := List.Pairwise.sublist (List.drop_sublist nd del) hsort
      rw [hdrop] at hpw
      rcases List.mem_cons.mp hmem2 with h | h
      · rw [List.getD_eq_getElem?_getD, List.getElem?_eq_getElem hnd]
        simp only [Option.getD_some]
        rw [← hhead, ← h]
      · have hlt : h0 < index := (List.pairwise_cons.mp hpw).1 index h
        have hge : index ≤ h0 := h₂ h0 (by rw [hdrop]; exact List.mem_cons_self _ _)
        omega

theorem spanLoop_eq_spanLoopMem {del : List Nat} (hsort : del.Pairwise (· < ·)) :
    ∀ (ops : List SerializedOperator) (index nd : Nat) (m : SpanMap),
      (∀ x ∈ del.take nd, x < index) →
      (∀ x ∈ del.drop nd, index ≤ x) →
      spanLoop del ops index nd m = spanLoopMem del ops index m
  | [], _, _, _, _, _ => rfl
  | op :: rest, index, nd, m, h₁, h₂ => by
    have hiff := skip_iff hsort h₁ h₂
    simp only [spanLoop, spanLoopMem]
    by_cases hmem : index ∈ del
    · obtain ⟨hnd, hget⟩ := hiff.mpr hmem
      rw [if_pos (hiff.mpr hmem), if_pos hmem]
      refine spanLoop_eq_spanLoopMem hsort rest (index + 1) (nd + 1) m ?_ ?_
      · intro x hx
        rw [List.take_succ] at hx
        rcases List.mem_append.mp hx with h | h
        · exact Nat.lt_succ_of_lt (h₁ x h)
        · rw [List.getElem?_eq_getElem hnd] at h
          simp only [Option.toList_some, List.mem_singleton] at h
          subst h
          have hg : del.getD nd 0 = del[nd] := by
            rw [List.getD_eq_getElem?_getD, List.getElem?_eq_getElem hnd]
            rfl
          rw [← hg, hget]
          omega
      · intro x hx
        have hdt : del.drop (nd + 1) = (del.drop nd).tail := by
          rw [← List.drop_one, List.drop_drop, Nat.add_comm]
        rw [hdt] at hx
        rcases hdrop : del.drop nd with _ | ⟨h0, tl⟩
        · rw [hdrop] at hx; cases hx
        · rw [hdrop] at hx
          simp only [List.tail_cons] at hx
          have hpw := List.Pairwise.sublist (List.drop_sublist nd del) hsort
          rw [hdrop] at hpw
          have hlt : h0 < x := (List.pairwise_cons.mp hpw).1 x hx
          have hh0 : index ≤ h0 :=
            h₂ h0 (by rw [hdrop]; exact List.mem_cons_self _ _)
          omega
    · have hns : ¬ (nd < del.length ∧ del.getD nd 0 = index) := fun hc =>
        hmem (hiff.mp hc)
      rw [if_neg hns, if_neg hmem]
      cases h : handle_op index op m with
      | none => rfl
      | some m₁ =>
        refine spanLoop_eq_spanLoopMem hsort rest (index + 1) nd m₁ ?_ ?_
        · intro x hx
          exact Nat.lt_succ_of_lt (h₁ x hx)
        · intro x hx
          have hge := h₂ x hx
          have hne : x ≠ index := by
            rintro rfl
            exact hmem (List.drop_subset nd del hx)
          omega

theorem buildSpans_eq_mem (ops : List SerializedOperator) :
    buildSpans ops (computeDelete ops) =
      spanLoopMem (computeDelete ops) ops 0 [] := by
  unfold buildSpans
  exact spanLoop_eq_spanLoopMem (computeDelete_sorted ops) ops 0 0 []
    (by intro x hx; simp at hx) (fun x _ => Nat.zero_le x)

theorem buildSpans_char (ops : List SerializedOperator) :
    (buildSpans ops (computeDelete ops) = none ↔
      readBeforeWrite ops (computeDelete ops)) ∧
    (∀ m, buildSpans ops (computeDelete ops) = some m →
      SpanMapWF ops (computeDelete ops) m) := by
  rw [buildSpans_eq_mem]
  exact spanLoopMem_char (computeDelete ops) ops

/-! ## The event sweep: the k-th smallest end always lies strictly after the
k-th smallest start, so end events are only reached strictly after the same
number of start events -/

theorem sorted_byEnd_le {Es : List ValueSpan} (hE : List.Sorted byEnd Es)
    {i k : Nat} (hik : i ≤ k) (hk : k < Es.length) (hi : i < Es.length) :
    Es[i].end_ ≤ Es[k].end_ := by
  rcases Nat.eq_or_lt_of_le hik with h | h
  · subst h; exact Nat.le_refl _
  · have hrel := hE.rel_get_of_lt (a := ⟨i, hi⟩) (b := ⟨k, hk⟩)
      (by exact Fin.mk_lt_mk.mpr h)
    simpa [byEnd] using hrel

theorem sorted_byStart_le {Ss : List ValueSpan} (hS : List.Sorted byStart Ss)
    {i k : Nat} (hik : i ≤ k) (hk : k < Ss.length) (hi : i < Ss.length) :
    Ss[i].start ≤ Ss[k].start := by
  rcases Nat.eq_or_lt_of_le hik with h | h
  · subst h; exact Nat.le_refl _
  · have hrel := hS.rel_get_of_lt (a := ⟨i, hi⟩) (b := ⟨k, hk⟩)
      (by exact Fin.mk_lt_mk.mpr h)
    simpa [byStart] using hrel

theorem kth_start_lt_kth_end (Ss Es : List ValueSpan) (hperm : Ss.Perm Es)
    (hS : List.Sorted byStart Ss) (hE : List.Sorted byEnd Es)
    (hws : ∀ sp ∈ Es, sp.start < sp.end_) (k : Nat) (hk : k < Es.length) :
    (Ss.getD k default).start < (Es.getD k default).end_ := by
  by_contra hc
  push_neg at hc
  have hlenS : Ss.length = Es.length := hperm.length_eq
  have hkS : k < Ss.length := by omega
  have hEk : Es.getD k default = Es[k] := by
    rw [List.getD_eq_getElem?_getD, List.getElem?_eq_getElem hk]; rfl
  have hSk : Ss.getD k default = Ss[k] := by
    rw [List.getD_eq_getElem?_getD, List.getElem?_eq_getElem hkS]; rfl
  rw [hEk, hSk] at hc
  have hcount1 : k + 1 ≤ Es.countP (fun sp => decide (sp.start < Es[k].end_)) := by
    have hlt : (Es.take (k + 1)).length = k + 1 := by
      rw [List.length_take]; omega
    have htake : (Es.take (k + 1)).countP
        (fun sp => decide (sp.start < Es[k].end_)) = (Es.take (k + 1)).length := by
      rw [List.countP_eq_length]
      intro sp hsp
      obtain ⟨i, hi, hieq⟩ := List.mem_iff_getElem.mp hsp
      rw [List.getElem_take] at hieq
      have hile : i ≤ k := by
        rw [List.length_take] at hi; omega
      have hle := sorted_byEnd_le hE hile hk (by omega)
      have hwssp : sp.start < sp.end_ := hws sp (by
        rw [← hieq]; exact List.getElem_mem (by omega))
      rw [← hieq] at hwssp ⊢
      simp only [decide_eq_true_eq]
      omega
    calc k + 1 = (Es.take (k + 1)).length := hlt.symm
      _ = (Es.take (k + 1)).countP (fun sp => decide (sp.start < Es[k].end_)) :=
          htake.symm
      _ ≤ (Es.take (k + 1)).countP (fun sp => decide (sp.start < Es[k].end_)) +
            (Es.drop (k + 1)).countP (fun sp => decide (sp.start < Es[k].end_)) := by
          omega
      _ = Es.countP (fun sp => decide (sp.start < Es[k].end_)) := by
          rw [← List.countP_append, List.take_append_drop]
  have hcount2 : Ss.countP (fun sp => decide (sp.start < Es[k].end_)) ≤ k := by
    have hdropz : (Ss.drop k).countP (fun sp => decide (sp.start < Es[k].end_)) = 0 := by
      rw [List.countP_eq_zero]
      intro sp hsp
      obtain ⟨i, hi, hieq⟩ := List.mem_iff_getElem.mp hsp
      rw [List.getElem_drop] at hieq
      rw [List.length_drop] at hi
      have hge := sorted_byStart_le hS (Nat.le_add_right k i) (by omega) (by omega)
      rw [hieq] at hge
      simp only [decide_eq_true_eq]
      omega
    calc Ss.countP (fun sp => decide (sp.start < Es[k].end_))
        = (Ss.take k).countP (fun sp => decide (sp.start < Es[k].end_)) +
            (Ss.drop k).countP (fun sp => decide (sp.start < Es[k].end_)) := by
          rw [← List.countP_append, List.take_append_drop]
      _ = (Ss.take k).countP (fun sp => decide (sp.start < Es[k].end_)) := by
          rw [hdropz, Nat.add_zero]
      _ ≤ (Ss.take k).length := List.countP_le_length _
      _ ≤ k := by rw [List.length_take]; omega
  have hpc := hperm.countP_eq (fun sp => decide (sp.start < Es[k].end_))
  omega

/-! ## One-step lemmas for `handle_start` and `handle_end` -/

theorem getElem?_append_some {α : Type} {l : List α} {n : Nat} {t : α}
    (h : l[n]? = some t) (l₂ : List α) : (l ++ l₂)[n]? = some t := by
  have hlt : n < l.length := by
    rcases List.getElem?_eq_some.mp h with ⟨hlt, _⟩
    exact hlt
  rw [List.getElem?_append_left hlt]
  exact h

theorem handle_start_step (types : Value → Nat → Ty) (nlocals : Nat)
    (st : AllocState) (sp : ValueSpan)
    (hfree : FreelistInv nlocals st)
    (hloc : LocationsInv types nlocals st) :
    (∀ k, (alGet (handle_start types nlocals st sp).locations k).isSome ↔
      ((sp.value, sp.multi_value_index) = k ∨ (alGet st.locations k).isSome)) ∧
    ((st.locations.map Prod.fst).Nodup →
      ((handle_start types nlocals st sp).locations.map Prod.fst).Nodup) ∧
    FreelistInv nlocals (handle_start types nlocals st sp) ∧
    LocationsInv types nlocals (handle_start types nlocals st sp) := by
  rcases hfl : alGet st.freelist (types sp.value sp.multi_value_index)
    with _ | bucket
  · have hunf : handle_start types nlocals st sp =
        { st with
          new_locals := st.new_locals ++ [types sp.value sp.multi_value_index]
          locations := alInsert st.locations (sp.value, sp.multi_value_index)
            ((nlocals + st.new_locals.length) % 4294967296) } := by
      simp only [handle_start, hfl]
    rw [hunf]
    refine ⟨?_, ?_, ?_, ?_⟩
    · intro k
      rw [alGet_alInsert]
      by_cases h : (sp.value, sp.multi_value_index) = k <;> simp [h]
    · intro h
      exact nodup_keys_alInsert _ _ _ h
    · intro t b hb l hl
      obtain ⟨j, h1, h2⟩ := hfree t b hb l hl
      exact ⟨j, h1, getElem?_append_some h2 _⟩
    · intro k l hkl
      rw [alGet_alInsert] at hkl
      by_cases h : (sp.value, sp.multi_value_index) = k
      · rw [if_pos h] at hkl
        injection hkl with hkl
        subst hkl
        refine ⟨st.new_locals.length, rfl, ?_⟩
        rw [← h]
        exact List.getElem?_concat_length _ _
      · rw [if_neg h] at hkl
        obtain ⟨j, h1, h2⟩ := hloc k l hkl
        exact ⟨j, h1, getElem?_append_some h2 _⟩
  · rcases bucket with _ | ⟨slot, restl⟩
    · have hunf : handle_start types nlocals st sp =
          { st with
            new_locals := st.new_locals ++ [types sp.value sp.multi_value_index]
            locations := alInsert st.locations (sp.value, sp.multi_value_index)
              ((nlocals + st.new_locals.length) % 4294967296) } := by
        simp only [handle_start, hfl]
      rw [hunf]
      refine ⟨?_, ?_, ?_, ?_⟩
      · intro k
        rw [alGet_alInsert]
        by_cases h : (sp.value, sp.multi_value_index) = k <;> simp [h]
      · intro h
        exact nodup_keys_alInsert _ _ _ h
      · intro t b hb l hl
        obtain ⟨j, h1, h2⟩ := hfree t b hb l hl
        exact ⟨j, h1, getElem?_append_some h2 _⟩
      · intro k l hkl
        rw [alGet_alInsert] at hkl
        by_cases h : (sp.value, sp.multi_value_index) = k
        · rw [if_pos h] at hkl
          injection hkl with hkl
          subst hkl
          refine ⟨st.new_locals.length, rfl, ?_⟩
          rw [← h]
          exact List.getElem?_concat_length _ _
        · rw [if_neg h] at hkl
          obtain ⟨j, h1, h2⟩ := hloc k l hkl
          exact ⟨j, h1, getElem?_append_some h2 _⟩
    · have hunf : handle_start types nlocals st sp =
          { st with
            freelist := alInsert st.freelist (types sp.value sp.multi_value_index) restl
            locations := alInsert st.locations (sp.value, sp.multi_value_index) slot } := by
        simp only [handle_start, hfl]
      rw [hunf]
      have hslot := hfree (types sp.value sp.multi_value_index) (slot :: restl) hfl
      refine ⟨?_, ?_, ?_, ?_⟩
      · intro k
        rw [alGet_alInsert]
        by_cases h : (sp.value, sp.multi_value_index) = k <;> simp [h]
      · intro h
        exact nodup_keys_alInsert _ _ _ h
      · intro t b hb l hl
        rw [alGet_alInsert] at hb
        by_cases h : types sp.value sp.multi_value_index = t
        · rw [if_pos h] at hb
          injection hb with hb
          subst hb
          subst h
          exact hslot l (List.mem_cons_of_mem _ hl)
        · rw [if_neg h] at hb
          exact hfree t b hb l hl
      · intro k l hkl
        rw [alGet_alInsert] at hkl
        by_cases h : (sp.value, sp.multi_value_index) = k
        · rw [if_pos h] at hkl
          injection hkl with hkl
          subst hkl
          have hsl := hslot slot (List.mem_cons_self _ _)
          rw [← h]
          exact hsl
        · rw [if_neg h] at hkl
          exact hloc k l hkl

theorem handle_end_step (types : Value → Nat → Ty) (nlocals : Nat)
    (st : AllocState) (sp : ValueSpan) (slot : Nat)
    (hlook : alGet st.locations (sp.value, sp.multi_value_index) = some slot)
    (hfree : FreelistInv nlocals st)
    (hloc : LocationsInv types nlocals st) :
    ∃ st₁, handle_end types st sp = some st₁ ∧
      st₁.locations = st.locations ∧ st₁.new_locals = st.new_locals ∧
      FreelistInv nlocals st₁ ∧ LocationsInv types nlocals st₁ := by
  refine ⟨⟨st.locations, st.new_locals,
      alInsert st.freelist (types sp.value sp.multi_value_index)
        (slot :: (alGet st.freelist (types sp.value sp.multi_value_index)).getD [])⟩,
    by simp only [handle_end, hlook], rfl, rfl, ?_, hloc⟩
  intro t b hb l hl
  rw [alGet_alInsert] at hb
  by_cases h : types sp.value sp.multi_value_index = t
  · subst h
    rw [if_pos rfl] at hb
    injection hb with hb
    subst hb
    rcases List.mem_cons.mp hl with rfl | hl'
    · exact hloc _ l hlook
    · rcases hob : alGet st.freelist (types sp.value sp.multi_value_index)
        with _ | ob
      · rw [hob] at hl'
        simp at hl'
      · rw [hob] at hl'
        exact hfree _ ob hob l hl'
  · rw [if_neg h] at hb
    exact hfree t b hb l hl

/-! ## The sweep runs to completion: every `handle_end` lookup succeeds, every
span receives exactly one slot, and slot typing is respected -/

theorem sweepLoop_inv (types : Value → Nat → Ty) (nlocals : Nat)
    (starts ends : List ValueSpan)
    (hlen : starts.length = ends.length)
    (hS : List.Sorted byStart starts) (hE : List.Sorted byEnd ends)
    (hperm : starts.Perm ends)
    (hws : ∀ sp ∈ ends, sp.start < sp.end_) :
    ∀ (fuel s e : Nat) (st : AllocState),
      (ends.length - s) + (ends.length - e) ≤ fuel →
      e ≤ s → s ≤ ends.length →
      (∀ k, (alGet st.locations k).isSome ↔ k ∈ (ends.take s).map keyOf) →
      (st.locations.map Prod.fst).Nodup →
      FreelistInv nlocals st →
      LocationsInv types nlocals st →
      ∃ stF, sweepLoop types nlocals starts ends fuel s e st = some stF ∧
        (∀ k, (alGet stF.locations k).isSome ↔ k ∈ ends.map keyOf) ∧
        (stF.locations.map Prod.fst).Nodup ∧
        LocationsInv types nlocals stF := by
  intro fuel
  induction fuel with
  | zero =>
    intro s e st hf hes hsn hdom hnd hfree hloc
    have hs : s = ends.length := by omega
    refine ⟨st, ?_, ?_, hnd, hloc⟩
    · simp only [sweepLoop]
      rw [if_neg]
      rintro (h | h) <;> omega
    · intro k
      rw [hdom k, hs, List.take_length]
  | succ fuel ih =>
    intro s e st hf hes hsn hdom hnd hfree hloc
    by_cases hboth : s < starts.length ∧ e < ends.length
    · by_cases hcond :
        (ends.getD e default).end_ ≤ (starts.getD s default).start
      · -- end event at the end cursor
        have hesn : e < s := by
          rcases Nat.lt_or_ge e s with h | h
          · exact h
          · exfalso
            have hes2 : e = s := by omega
            subst hes2
            have hK := kth_start_lt_kth_end starts ends hperm hS hE hws e
              (by omega)
            omega
        have he2 : e < ends.length := hboth.2
        have hspe : ends.getD e default = ends[e] := by
          rw [List.getD_eq_getElem?_getD, List.getElem?_eq_getElem he2]
          rfl
        have htlen : e < (ends.take s).length := by
          rw [List.length_take]; omega
        have hmemt : (ends.take s)[e] ∈ ends.take s := List.getElem_mem htlen
        rw [List.getElem_take] at hmemt
        have hmem : keyOf (ends.getD e default) ∈ (ends.take s).map keyOf := by
          rw [hspe]
          exact List.mem_map.mpr ⟨_, hmemt, rfl⟩
        have hisSome := (hdom _).mpr hmem
        rcases hlook : alGet st.locations
            ((ends.getD e default).value, (ends.getD e default).multi_value_index)
          with _ | slot
        · exfalso
          have hko : keyOf (ends.getD e default) =
              ((ends.getD e default).value,
                (ends.getD e default).multi_value_index) := rfl
          rw [hko, hlook] at hisSome
          simp at hisSome
        · obtain ⟨st₁, hhe, hl₁, hn₁, hfree₁, hloc₁⟩ :=
            handle_end_step types nlocals st (ends.getD e default) slot hlook
              hfree hloc
          obtain ⟨stF, hrun, hpost⟩ := ih s (e + 1) st₁ (by omega) (by omega) hsn
            (fun k => by rw [hl₁]; exact hdom k)
            (by rw [hl₁]; exact hnd) hfree₁ hloc₁
          refine ⟨stF, ?_, hpost⟩
          simp only [sweepLoop]
          rw [if_pos hboth, if_pos hcond, hhe]
          exact hrun
      · -- start event: the span is read from `ends[start_idx]` (source bug)
        have hsn' : s < ends.length := by omega
        obtain ⟨hdomS, hndS, hfreeS, hlocS⟩ :=
          handle_start_step types nlocals st (ends.getD s default) hfree hloc
        have hspe : ends.getD s default = ends[s] := by
          rw [List.getD_eq_getElem?_getD, List.getElem?_eq_getElem hsn']
          rfl
        have htss : ends.take (s + 1) = ends.take s ++ [ends[s]] := by
          rw [List.take_succ, List.getElem?_eq_getElem hsn']
          rfl
        obtain ⟨stF, hrun, hpost⟩ := ih (s + 1) e
          (handle_start types nlocals st (ends.getD s default))
          (by omega) (by omega) (by omega)
          (fun k => by
            rw [hdomS k, hdom k, htss, List.map_append, List.mem_append,
              List.map_singleton, List.mem_singleton]
            constructor
            · rintro (h | h)
              · refine Or.inr ?_
                rw [← h, ← hspe]
                rfl
              · exact Or.inl h
            · rintro (h | h)
              · exact Or.inr h
              · refine Or.inl ?_
                rw [h, hspe]
                rfl)
          (hndS hnd) hfreeS hlocS
        refine ⟨stF, ?_, hpost⟩
        simp only [sweepLoop]
        rw [if_pos hboth, if_neg hcond]
        exact hrun
    · by_cases hs1 : s < starts.length
      · exfalso
        have he1 : ¬ e < ends.length := fun h => hboth ⟨hs1, h⟩
        omega
      · by_cases he1 : e < ends.length
        · -- draining remaining end events after all starts are processed
          have hse : s = ends.length := by omega
          have hesn : e < s := by omega
          have hspe : ends.getD e default = ends[e] := by
            rw [List.getD_eq_getElem?_getD, List.getElem?_eq_getElem he1]
            rfl
          have htlen : e < (ends.take s).length := by
            rw [List.length_take]; omega
          have hmemt : (ends.take s)[e] ∈ ends.take s :=
            List.getElem_mem htlen
          rw [List.getElem_take] at hmemt
          have hmem : keyOf (ends.getD e default) ∈ (ends.take s).map keyOf := by
            rw [hspe]
            exact List.mem_map.mpr ⟨_, hmemt, rfl⟩
          have hisSome := (hdom _).mpr hmem
          rcases hlook : alGet st.locations
              ((ends.getD e default).value, (ends.getD e default).multi_value_index)
            with _ | slot
          · exfalso
            have hko : keyOf (ends.getD e default) =
                ((ends.getD e default).value,
                  (ends.getD e default).multi_value_index) := rfl
            rw [hko, hlook] at hisSome
            simp at hisSome
          · obtain ⟨st₁, hhe, hl₁, hn₁, hfree₁, hloc₁⟩ :=
              handle_end_step types nlocals st (ends.getD e default) slot hlook
                hfree hloc
            obtain ⟨stF, hrun, hpost⟩ := ih s (e + 1) st₁ (by omega) (by omega)
              hsn (fun k => by rw [hl₁]; exact hdom k)
              (by rw [hl₁]; exact hnd) hfree₁ hloc₁
            refine ⟨stF, ?_, hpost⟩
            simp only [sweepLoop]
            rw [if_neg hboth, if_neg hs1, if_pos he1, hhe]
            exact hrun
        · -- both cursors exhausted
          have hs2 : s = ends.length := by omega
          refine ⟨st, ?_, ?_, hnd, hloc⟩
          · simp only [sweepLoop]
            rw [if_neg hboth, if_neg hs1, if_neg he1]
          · intro k
            rw [hdom k, hs2, List.take_length]

/-! ## End-to-end characterization of `Locations.compute` -/

theorem compute_sweep (types : Value → Nat → Ty) (nlocals : Nat)
    (ops : List SerializedOperator) (m : SpanMap)
    (hbs : buildSpans ops (computeDelete ops) = some m) :
    ∃ st, sweepLoop types nlocals (List.insertionSort byStart (m.map Prod.snd))
        (List.insertionSort byEnd (m.map Prod.snd))
        ((List.insertionSort byStart (m.map Prod.snd)).length +
          (List.insertionSort byEnd (m.map Prod.snd)).length) 0 0 ⟨[], [], []⟩ =
        some st ∧
      (∀ k, (alGet st.locations k).isSome ↔
        writtenSurviving ops (computeDelete ops) k) ∧
      (st.locations.map Prod.fst).Nodup ∧
      LocationsInv types nlocals st ∧
      Locations.compute types nlocals ops =
        some ⟨st.locations, computeDelete ops, st.new_locals⟩ := by
  obtain ⟨hnd, hdom, hspan⟩ := (buildSpans_char ops).2 m hbs
  have hpermS := List.perm_insertionSort byStart (m.map Prod.snd)
  have hpermE := List.perm_insertionSort byEnd (m.map Prod.snd)
  have hperm : (List.insertionSort byStart (m.map Prod.snd)).Perm
      (List.insertionSort byEnd (m.map Prod.snd)) := hpermS.trans hpermE.symm
  have hlen := hperm.length_eq
  have hS := List.sorted_insertionSort byStart (m.map Prod.snd)
  have hE := List.sorted_insertionSort byEnd (m.map Prod.snd)
  have hws : ∀ sp ∈ List.insertionSort byEnd (m.map Prod.snd),
      sp.start < sp.end_ := by
    intro sp hsp
    have hsp₂ : sp ∈ m.map Prod.snd := hpermE.subset hsp
    obtain ⟨p, hp, hpe⟩ := List.mem_map.mp hsp₂
    obtain ⟨k, v⟩ := p
    have hget := alGet_eq_some_of_mem hnd hp
    have hlt := (hspan k v hget).2.2.2.1
    subst hpe
    exact hlt
  have hmapkeys : (m.map Prod.snd).map keyOf = m.map Prod.fst := by
    rw [List.map_map]
    refine List.map_congr_left ?_
    intro p hp
    obtain ⟨k, v⟩ := p
    exact (hspan k v (alGet_eq_some_of_mem hnd hp)).1
  have hdomEnds : ∀ k,
      k ∈ (List.insertionSort byEnd (m.map Prod.snd)).map keyOf ↔
        writtenSurviving ops (computeDelete ops) k := by
    intro k
    rw [(hpermE.map keyOf).mem_iff, hmapkeys, ← alGet_isSome_iff_mem_keys,
      hdom k]
  obtain ⟨st, hrun, hdomF, hndF, hlocF⟩ := sweepLoop_inv types nlocals
    (List.insertionSort byStart (m.map Prod.snd))
    (List.insertionSort byEnd (m.map Prod.snd))
    hlen hS hE hperm hws
    ((List.insertionSort byStart (m.map Prod.snd)).length +
      (List.insertionSort byEnd (m.map Prod.snd)).length) 0 0 ⟨[], [], []⟩
    (by omega) (Nat.le_refl 0) (Nat.zero_le _)
    (fun k => by simp [alGet])
    (by simp)
    (fun t b hb => by simp [alGet] at hb)
    (fun k l hkl => by simp [alGet] at hkl)
  refine ⟨st, hrun, fun k => ?_, hndF, hlocF, ?_⟩
  · rw [hdomF k, hdomEnds k]
  · simp only [Locations.compute, hbs, hrun]

/-! ## Remaining claim theorems -/

/-- C5: whenever the start-sorted and end-sorted orderings are built from the
same spans, as the sweep builds them from the liveness pass's span map, the
sweep runs to completion: in particular the slot lookup in `handle_end` (the
`.unwrap()`) never fails, since a `none` from any `handle_end` call would
propagate to the whole sweep. -/
theorem c5_handle_end_lookup_never_fails (types : Value → Nat → Ty)
    (nlocals : Nat) (ops : List SerializedOperator) (m : SpanMap)
    (hbs : buildSpans ops (computeDelete ops) = some m) :
    ∃ st, sweepLoop types nlocals
        (List.insertionSort byStart (m.map Prod.snd))
        (List.insertionSort byEnd (m.map Prod.snd))
        ((List.insertionSort byStart (m.map Prod.snd)).length +
          (List.insertionSort byEnd (m.map Prod.snd)).length) 0 0 ⟨[], [], []⟩ =
      some st := by
  obtain ⟨st, hrun, _⟩ := compute_sweep types nlocals ops m hbs
  exact ⟨st, hrun⟩

/-- Witness for C5 at the end-to-end example stream. -/
theorem c5_witness :
    buildSpans ops8 (computeDelete ops8) = some m8 ∧
    ∃ st, sweepLoop types8 0
        (List.insertionSort byStart (m8.map Prod.snd))
        (List.insertionSort byEnd (m8.map Prod.snd))
        ((List.insertionSort byStart (m8.map Prod.snd)).length +
          (List.insertionSort byEnd (m8.map Prod.snd)).length) 0 0 ⟨[], [], []⟩ =
      some st :=
  ⟨by decide, c5_handle_end_lookup_never_fails types8 0 ops8 m8 (by decide)⟩

/-- C6: `Locations::compute` aborts (modelled by `none`) exactly when some
surviving operation reads a (value, sub-index) pair that no earlier surviving
operation has written; when every read is preceded by a surviving write, the
abort branch is never taken and a result is produced. -/
theorem c6_read_before_write_aborts (types : Value → Nat → Ty) (nlocals : Nat)
    (ops : List SerializedOperator) :
    Locations.compute types nlocals ops = none ↔
      readBeforeWrite ops (computeDelete ops) := by
  constructor
  · intro h
    by_contra hn
    rcases hbs : buildSpans ops (computeDelete ops) with _ | m
    · exact hn ((buildSpans_char ops).1.mp hbs)
    · obtain ⟨st, hrun, _, _, _, hcomp⟩ := compute_sweep types nlocals ops m hbs
      rw [hcomp] at h
      cases h
  · intro h
    have hbs := (buildSpans_char ops).1.mpr h
    simp only [Locations.compute, hbs]

/-- C4: for a stream with no read-before-write, `Locations::compute` returns
a result whose locations map has exactly one entry for every pair written at
least once at a non-deleted position, and no entry for any other pair. -/
theorem c4_coverage (types : Value → Nat → Ty) (nlocals : Nat)
    (ops : List SerializedOperator)
    (hnr : ¬ readBeforeWrite ops (computeDelete ops)) :
    ∃ out, Locations.compute types nlocals ops = some out ∧
      (out.locations.map Prod.fst).Nodup ∧
      ∀ k, (alGet out.locations k).isSome ↔
        writtenSurviving ops (computeDelete ops) k := by
  rcases hbs : buildSpans ops (computeDelete ops) with _ | m
  · exact absurd ((buildSpans_char ops).1.mp hbs) hnr
  · obtain ⟨st, hrun, hdomF, hndF, hlocF, hcomp⟩ :=
      compute_sweep types nlocals ops m hbs
    exact ⟨⟨st.locations, computeDelete ops, st.new_locals⟩, hcomp, hndF, hdomF⟩

/-- Witness for C4 at the end-to-end example stream. -/
theorem c4_witness :
    ¬ readBeforeWrite ops8 (computeDelete ops8) ∧
    ∃ out, Locations.compute types8 0 ops8 = some out ∧
      (out.locations.map Prod.fst).Nodup ∧
      ∀ k, (alGet out.locations k).isSome ↔
        writtenSurviving ops8 (computeDelete ops8) k :=
  ⟨by decide, c4_coverage types8 0 ops8 (by decide)⟩

/-- C9 (amended): for every stream, every interval the liveness pass produces
satisfies `end > start`; each pair written at least once at a surviving
position has exactly one interval (the span map's keys are unique and cover
exactly those pairs); the interval's `start` is the position of the pair's
first surviving write; and its `end` is one plus the last surviving position
that reads or writes the pair — in particular `end = start + 1` when the
single write is the pair's only surviving access, but not when the pair is
written again later. -/
theorem c9_amended_interval_well_formedness (ops : List SerializedOperator)
    (m : SpanMap) (hbs : buildSpans ops (computeDelete ops) = some m) :
    (m.map Prod.fst).Nodup ∧
    (∀ k, (alGet m k).isSome ↔ writtenSurviving ops (computeDelete ops) k) ∧
    (∀ k s, alGet m k = some s →
      keyOf s = k ∧
      survivingWriteAt ops (computeDelete ops) s.start k ∧
      (∀ j, j < s.start → ¬ survivingWriteAt ops (computeDelete ops) j k) ∧
      s.start < s.end_ ∧
      survivingAccessAt ops (computeDelete ops) (s.end_ - 1) k ∧
      (∀ j, s.end_ - 1 < j → ¬ survivingAccessAt ops (computeDelete ops) j k)) :=
  (buildSpans_char ops).2 m hbs

/-- Witness for the amended C9 at the double-write stream. -/
theorem c9_witness :
    buildSpans ops9 (computeDelete ops9) = some m9 ∧
    (m9.map Prod.fst).Nodup :=
  ⟨by decide, (c9_amended_interval_well_formedness ops9 m9 (by decide)).1⟩

/-- C10 counterexample: the claim states that every slot number in the final
locations map is at least `f.locals.len()`. With 2^32 existing locals and
the single-write stream `opsC10`, the new slot id `f.locals.len() +
new_locals.len() = 2^32` is truncated by the `as u32` cast (source line 206)
to 0, which is below the existing-local count, so the claim as stated fails
on the code. -/
theorem c10_u32_wrap_counterexample :
    Locations.compute (fun _ _ => 0) 4294967296 opsC10 = some outC10 ∧
    alGet outC10.locations (1, 0) = some 0 ∧
    ¬ (4294967296 ≤ 0) := by decide

/-- C10 (amended): in any result of `Locations::compute`, provided the
existing local count plus the number of newly created slots stays below
2^32 (the width of `LocalId = u32`, so that the `as u32` cast in
`handle_start` truncates nothing), every assigned slot is numbered at or
above the function's existing local count — pre-existing locals are never
assigned, as the freelist starts empty and only ever receives slots created
during the run — and the `new_locals` entry at the slot's offset is exactly
the primitive type of the pair assigned to it. -/
theorem c10_amended_new_slots_only (types : Value → Nat → Ty) (nlocals : Nat)
    (ops : List SerializedOperator) (out : Locations)
    (hout : Locations.compute types nlocals ops = some out)
    (hbound : nlocals + out.new_locals.length < 4294967296) :
    ∀ k l, alGet out.locations k = some l →
      nlocals ≤ l ∧ out.new_locals[l - nlocals]? = some (types k.1 k.2) := by
  rcases hbs : buildSpans ops (computeDelete ops) with _ | m
  · have hnone : Locations.compute types nlocals ops = none := by
      simp only [Locations.compute, hbs]
    rw [hnone] at hout
    cases hout
  · obtain ⟨st, hrun, hdomF, hndF, hlocF, hcomp⟩ :=
      compute_sweep types nlocals ops m hbs
    rw [hcomp] at hout
    injection hout with hout
    subst hout
    intro k l hkl
    obtain ⟨j, hj1, hj2⟩ := hlocF k l hkl
    have hjlt : j < st.new_locals.length := by
      rcases List.getElem?_eq_some.mp hj2 with ⟨hlt, _⟩
      exact hlt
    have hbound₂ : nlocals + st.new_locals.length < 4294967296 := hbound
    have hsmall : nlocals + j < 4294967296 := by omega
    rw [Nat.mod_eq_of_lt hsmall] at hj1
    subst hj1
    refine ⟨by omega, ?_⟩
    rw [Nat.add_sub_cancel_left]
    exact hj2

/-- Witness for the amended C10 at the end-to-end example stream with five
existing locals: pair (2,0) is assigned slot 6 = 5 + 1, and `new_locals[1]`
is its type 2. -/
theorem c10_witness :
    Locations.compute types8 5 ops8 = some out85 ∧
    (5 ≤ 6 ∧ out85.new_locals[6 - 5]? = some (types8 2 0)) :=
  ⟨by decide, c10_amended_new_slots_only types8 5 ops8 out85 (by decide)
    (by decide) (2, 0) 6 (by decide)⟩

end LocationsModel
